import Mathlib

/-!
# Verification of the btc-hashes library against its specification

Shallow embedding of the btc-hashes Rust library (SHA-2 family, RIPEMD-160,
HMAC, PBKDF2) and proofs of the specified properties.

Machine words (`u32`, `u64`) are modelled as `Nat` with explicit reduction
modulo `2 ^ 32` / `2 ^ 64` wherever the Rust code wraps.  Byte strings are
`List Nat` (each element intended `< 256`; theorems that do not need the
bound do not assume it).

The repository mixes several revisions of its streaming engine.  Each
claim is settled against the revision its cited code belongs to:

* `src/core/mod.rs` (macros `input_func`, `midstate_funcs`, `impl_default`):
  an engine with a fixed `BLOCKSIZE`-byte buffer indexed by
  `length % BLOCKSIZE`, where `length` counts absorbed bytes.  We model the
  buffer by its *live region*: the first `length % BLOCKSIZE` bytes of the
  physical array, i.e. exactly the bytes that have been written since the
  last processed block.  Bytes of the physical array beyond the live region
  are dead: `input` overwrites them before they can reach `process_block`,
  and finalisation pads only the live tail.
* `src/ripemd.rs` together with the streaming revision visible in
  `Sha256m` (`src/sha2.rs`): a growable buffer holding the unprocessed
  tail, with `length` counting absorbed *bits* (this is the unit that
  `pad_fbuffer` serialises, and the one under which the file's own test
  vectors hold).
-/

set_option autoImplicit false

/-! ## Bit primitives (src/core/functions.rs) -/

/-- `2 ^ 32`, the modulus of all wrapping `u32` arithmetic. -/
def U32 : Nat := 4294967296

/-- `2 ^ 64`, the modulus of all wrapping `u64` arithmetic. -/
def U64 : Nat := 18446744073709551616

/-- Bitwise complement on 32-bit words (`!x` on a Rust `u32`). -/
def not32 (x : Nat) : Nat := 4294967295 ^^^ x

/-- `u32::rotate_right(x, n)` for `n ≤ 32`, on values `< 2 ^ 32`. -/
def rotr32 (n x : Nat) : Nat := (x >>> n) ||| ((x <<< (32 - n)) % U32)

/-- `u32::rotate_left(x, n)` for `n ≤ 32`, on values `< 2 ^ 32`. -/
def rotl32 (n x : Nat) : Nat := ((x <<< n) % U32) ||| (x >>> (32 - n))

/-- `choice` from src/core/functions.rs: for each bit, if X is set choose Y
else choose Z. -/
def choice (x y z : Nat) : Nat := (x &&& y) ^^^ (not32 x &&& z)

/-- `majority` from src/core/functions.rs. -/
def majority (x y z : Nat) : Nat := (x &&& y) ^^^ (x &&& z) ^^^ (y &&& z)

/-- Uppercase Sigma 0 for `u32` (src/core/functions.rs). -/
def usigma0 (x : Nat) : Nat := rotr32 2 x ^^^ rotr32 13 x ^^^ rotr32 22 x

/-- Uppercase Sigma 1 for `u32` (src/core/functions.rs). -/
def usigma1 (x : Nat) : Nat := rotr32 6 x ^^^ rotr32 11 x ^^^ rotr32 25 x

/-- Lowercase sigma 0 for `u32` (src/core/functions.rs). -/
def lsigma0 (x : Nat) : Nat := rotr32 7 x ^^^ rotr32 18 x ^^^ (x >>> 3)

/-- Lowercase sigma 1 for `u32` (src/core/functions.rs). -/
def lsigma1 (x : Nat) : Nat := rotr32 17 x ^^^ rotr32 19 x ^^^ (x >>> 10)

namespace ripemd160

/-- Modelled from the spec: §4.1 RIPEMD-160 round nonlinear function `f`
(the module `functions::ripemd160` referenced by src/ripemd.rs is missing
from src). -/
def f (x y z : Nat) : Nat := x ^^^ y ^^^ z

/-- Modelled from the spec: §4.1 RIPEMD-160 round nonlinear function `g`. -/
def g (x y z : Nat) : Nat := (x &&& y) ||| (not32 x &&& z)

/-- Modelled from the spec: §4.1 RIPEMD-160 round nonlinear function `h`. -/
def h (x y z : Nat) : Nat := (x ||| not32 y) ^^^ z

/-- Modelled from the spec: §4.1 RIPEMD-160 round nonlinear function `i`. -/
def i (x y z : Nat) : Nat := (x &&& z) ||| (y &&& not32 z)

/-- Modelled from the spec: §4.1 RIPEMD-160 round nonlinear function `j`. -/
def j (x y z : Nat) : Nat := x ^^^ (y ||| not32 z)

end ripemd160

/-! ## Byte conversions -/

/-- Big-endian value of a byte list (`u32::from_be_bytes` and friends). -/
def fromBytesBE (l : List Nat) : Nat := l.foldl (fun acc b => acc * 256 + b) 0

/-- Little-endian value of a byte list: the result of `transmute`-ing a byte
array into an integer on a little-endian host. -/
def fromBytesLE (l : List Nat) : Nat := l.foldr (fun b acc => b + acc * 256) 0

/-- `u32::to_be_bytes` (on values `< 2 ^ 32`). -/
def toBytesBE32 (x : Nat) : List Nat :=
  [x / 16777216 % 256, x / 65536 % 256, x / 256 % 256, x % 256]

/-- `u32::to_le_bytes` (on values `< 2 ^ 32`). -/
def toBytesLE32 (x : Nat) : List Nat :=
  [x % 256, x / 256 % 256, x / 65536 % 256, x / 16777216 % 256]

/-- `u64::to_be_bytes` (on values `< 2 ^ 64`). -/
def toBytesBE64 (x : Nat) : List Nat :=
  [x / 72057594037927936 % 256, x / 281474976710656 % 256,
   x / 1099511627776 % 256, x / 4294967296 % 256,
   x / 16777216 % 256, x / 65536 % 256, x / 256 % 256, x % 256]

/-- `u64::to_le_bytes` (on values `< 2 ^ 64`). -/
def toBytesLE64 (x : Nat) : List Nat :=
  [x % 256, x / 256 % 256, x / 65536 % 256, x / 16777216 % 256,
   x / 4294967296 % 256, x / 1099511627776 % 256,
   x / 281474976710656 % 256, x / 72057594037927936 % 256]

/-- `u32::swap_bytes` (`MessageSchedule::reverse_words` applies this to every
word, src/core/message.rs). -/
def swap32 (x : Nat) : Nat := fromBytesBE (toBytesBE32 x).reverse

/-! ## Message splitting and padding loops

`splitGo` embeds the block-splitting of `MessageBlock::from_message`
(src/core/message.rs) and the `while self.buffer.len() >= BLOCKSIZE` loop of
the streaming engines; it returns the complete 64-byte blocks together with
the remaining tail.  `padGo` embeds the zero-padding loop
`while data.len() % BLOCKSIZE != BLOCKSIZE - 8 { data.push(0x00) }` shared by
`pad_input` (src/sha2.rs) and `pad_fbuffer` (src/ripemd.rs, src/sha2.rs).
Both run on a fuel argument that only bounds the number of iterations: every
iteration of the source loops consumes (or produces) at least one byte, so
fuel `l.length` (resp. `64`) makes the embedding total without changing the
computed value. -/

/-- Split a byte list into its complete 64-byte blocks and the remaining
tail (fuelled worker). -/
def splitGo : Nat → List Nat → (List (List Nat) × List Nat)
  | 0, l => ([], l)
  | fu + 1, l =>
    if 64 ≤ l.length then
      let r := splitGo fu (l.drop 64)
      (l.take 64 :: r.1, r.2)
    else ([], l)

/-- Split a byte list into its complete 64-byte blocks and the remaining
tail. -/
def splitB (l : List Nat) : List (List Nat) × List Nat := splitGo l.length l

/-- The zero-padding loop: append `0x00` until the length is `56 mod 64`
(fuelled worker; 64 units of fuel always suffice). -/
def padGo : Nat → List Nat → List Nat
  | 0, l => l
  | fu + 1, l => if l.length % 64 = 56 then l else padGo fu (l ++ [0])

/-- Append `0x00` bytes until the length is `56 mod 64`. -/
def padTo56 (l : List Nat) : List Nat := padGo 64 l

/-! ## SHA-256 message schedule (src/core/message.rs) and compression
(src/sha2.rs, macro `sha2_compression`) -/

/-- The eight `u32` registers of a SHA-2 state, in the order
`(a, b, c, d, e, f, g, h)` = `state[0] .. state[7]`. -/
structure Regs where
  a : Nat
  b : Nat
  c : Nat
  d : Nat
  e : Nat
  f : Nat
  g : Nat
  h : Nat
deriving DecidableEq, Repr

/-- Word `i` of a block as the source extracts it: take the `i`-th 4-byte
chunk, `reverse` it and `transmute` it to a `u32` on a little-endian host
(src/core/message.rs, `MessageSchedule<u32, W>::from`). -/
def blockWordSrc (block : List Nat) (i : Nat) : Nat :=
  fromBytesLE ((block.drop (4 * i)).take 4).reverse

/-- Word `i` of a block as the spec words it: the `i`-th 4-byte group
interpreted as a big-endian word. -/
def blockWordSpec (block : List Nat) (i : Nat) : Nat :=
  fromBytesBE ((block.drop (4 * i)).take 4)

/-- The schedule-extension loop of `MessageSchedule<u32, W>::from`: starting
from the 16 block words, push
`W[i] = (σ1(W[i-2]) + W[i-7] + σ0(W[i-15]) + W[i-16]) % 2^32`
(the source widens to `u64` and reduces `% 2u64.pow(32)`, which is the same
reduction) until `n` words have been built. -/
def buildSched (m : Nat → Nat) : Nat → List Nat
  | 0 => []
  | n + 1 =>
    let w := buildSched m n
    w ++ [if n < 16 then m n
          else (lsigma1 (w.getD (n - 2) 0) + w.getD (n - 7) 0 +
                lsigma0 (w.getD (n - 15) 0) + w.getD (n - 16) 0) % U32]

/-- The 64-word SHA-256 message schedule of a 64-byte block, as the source
computes it. -/
def messageScheduleSrc (block : List Nat) : List Nat :=
  buildSched (blockWordSrc block) 64

/-- The 64-word SHA-256 message schedule as the spec describes it:
big-endian words `W[0..16]`, extended by the same recurrence. -/
def messageScheduleSpec (block : List Nat) : List Nat :=
  buildSched (blockWordSpec block) 64

/-- One round of the `sha2_compression` loop (src/sha2.rs), translated
literally: `t1`/`t2` with the source's operand order and nested
`wrapping_add`s, followed by the source's sequence of register
assignments (in particular `e` is first set to `d` and then incremented by
`t1`). -/
def sha2RoundSrc (k w : Nat) (r : Regs) : Regs :=
  let t1 := ((((usigma1 r.e + choice r.e r.f r.g) % U32 + r.h) % U32 + k) % U32
              + w) % U32
  let t2 := (usigma0 r.a + majority r.a r.b r.c) % U32
  let h := r.g
  let g := r.f
  let f := r.e
  let e := r.d
  let d := r.c
  let c := r.b
  let b := r.a
  let a := (t1 + t2) % U32
  let e := (e + t1) % U32
  ⟨a, b, c, d, e, f, g, h⟩

/-- One compression round as the claim states it:
`T1 = h + Σ1(e) + Choice(e,f,g) + K[i] + W[i]`,
`T2 = Σ0(a) + Majority(a,b,c)` and the simultaneous shift
`h,g,f,e,d,c,b,a = g,f,e,d+T1,c,b,a,T1+T2` (all modulo `2^32`). -/
def sha2RoundSpec (k w : Nat) (r : Regs) : Regs :=
  let t1 := (r.h + usigma1 r.e + choice r.e r.f r.g + k + w) % U32
  let t2 := (usigma0 r.a + majority r.a r.b r.c) % U32
  ⟨(t1 + t2) % U32, r.a, r.b, r.c, (r.d + t1) % U32, r.e, r.f, r.g⟩

/-- `process_block` of the SHA-256/SHA-224 engines (macro `sha2_compression`
in src/sha2.rs, instantiated at `u32` with schedule length 64): build the
schedule, run 64 rounds from the current state, then add the round result
component-wise (wrapping) into the prior state.  The round-constant table is
a parameter, as in the macro. -/
def sha256ProcessBlock (k : Nat → Nat) (st : Regs) (block : List Nat) : Regs :=
  let sched := messageScheduleSrc block
  let r := (List.range 64).foldl
    (fun r i => sha2RoundSrc (k i) (sched.getD i 0) r) st
  ⟨(st.a + r.a) % U32, (st.b + r.b) % U32, (st.c + r.c) % U32,
   (st.d + r.d) % U32, (st.e + r.e) % U32, (st.f + r.f) % U32,
   (st.g + r.g) % U32, (st.h + r.h) % U32⟩

/-- The claim's description of `process_block`: spec-worded schedule
(big-endian words, same recurrence), 64 rounds of `sha2RoundSpec`, then the
component-wise wrapping addition into the prior state. -/
def sha256ProcessBlockSpec (k : Nat → Nat) (st : Regs) (block : List Nat) : Regs :=
  let sched := messageScheduleSpec block
  let r := (List.range 64).foldl
    (fun r i => sha2RoundSpec (k i) (sched.getD i 0) r) st
  ⟨(st.a + r.a) % U32, (st.b + r.b) % U32, (st.c + r.c) % U32,
   (st.d + r.d) % U32, (st.e + r.e) % U32, (st.f + r.f) % U32,
   (st.g + r.g) % U32, (st.h + r.h) % U32⟩

/-! ## Constants

`lib.rs` declares `mod constants;` but `constants.rs` is missing from src;
the spec (§6) fixes the values as the standard NIST / RIPEMD tables. -/

/-- Modelled from the spec: §6, `SHA256_INITIAL_CONSTANTS` (the NIST SHA-256
initial hash values; the file src/constants.rs is missing from src). -/
def SHA256_INITIAL_CONSTANTS : Regs :=
  ⟨1779033703, 3144134277, 1013904242, 2773480762,
   1359893119, 2600822924, 528734635, 1541459225⟩

/-- Modelled from the spec: §6, `SHA256_ROUND_CONSTANTS` (the NIST SHA-256
K table; the file src/constants.rs is missing from src). -/
def SHA256_ROUND_CONSTANTS : List Nat :=
  [1116352408, 1899447441, 3049323471, 3921009573, 961987163,
   1508970993, 2453635748, 2870763221, 3624381080, 310598401,
   607225278, 1426881987, 1925078388, 2162078206, 2614888103,
   3248222580, 3835390401, 4022224774, 264347078, 604807628,
   770255983, 1249150122, 1555081692, 1996064986, 2554220882,
   2821834349, 2952996808, 3210313671, 3336571891, 3584528711,
   113926993, 338241895, 666307205, 773529912, 1294757372,
   1396182291, 1695183700, 1986661051, 2177026350, 2456956037,
   2730485921, 2820302411, 3259730800, 3345764771, 3516065817,
   3600352804, 4094571909, 275423344, 430227734, 506948616,
   659060556, 883997877, 958139571, 1322822218, 1537002063,
   1747873779, 1955562222, 2024104815, 2227730452, 2361852424,
   2428436474, 2756734187, 3204031479, 3329325298]

/-- The SHA-256 K table as the function fed to the compression loop. -/
def sha256K (i : Nat) : Nat := SHA256_ROUND_CONSTANTS.getD i 0

/-- Modelled from the spec: §6, `RIPEMD160_INITIAL_CONSTANTS`
(0x67452301, 0xefcdab89, 0x98badcfe, 0x10325476, 0xc3d2e1f0; the file
src/constants.rs is missing from src). -/
def RIPEMD160_INITIAL_CONSTANTS : List Nat :=
  [0x67452301, 0xefcdab89, 0x98badcfe, 0x10325476, 0xc3d2e1f0]

/-! ## Whole-message SHA-256 (src/sha2.rs, `sha2_input_padding` and the
`hash` method of `impl_hash_engine_sha2`) — used to validate the embedding
against the repository's own test vectors. -/

/-- `pad_input` of the SHA-256 engine (macro `sha2_input_padding` at
`u64`/blocksize 64): append `0x80`, zero-pad to `56 mod 64`, then append the
bit length `data.len() * 8` as 8 big-endian bytes. -/
def sha256PadInput (input : List Nat) : List Nat :=
  padTo56 (input ++ [0x80]) ++ toBytesBE64 (8 * input.length)

/-- Digest extraction of `impl_hash_engine_sha2` for SHA-256: reverse the
state, skip `(32 - 32) / 4 = 0` registers, flat-map `to_le_bytes`, and
reverse the whole byte string. -/
def sha256Extract (st : Regs) : List Nat :=
  ((([st.a, st.b, st.c, st.d, st.e, st.f, st.g, st.h].reverse.drop
      ((8 * 4 - 32) / 4)).map toBytesLE32).flatten).reverse

/-- The `hash` method of the SHA-256 engine (src/sha2.rs): pad the whole
input, process every block from the initial constants, and extract the
digest. -/
def sha256Hash (input : List Nat) : List Nat :=
  sha256Extract
    ((splitB (sha256PadInput input)).1.foldl
      (sha256ProcessBlock sha256K) SHA256_INITIAL_CONSTANTS)

/-! ## RIPEMD-160 (src/ripemd.rs) -/

/-- The five 32-bit chaining registers of RIPEMD-160 (`State<u32, 5>`),
`a .. e` = `state[0] .. state[4]`. -/
structure R5 where
  a : Nat
  b : Nat
  c : Nat
  d : Nat
  e : Nat
deriving DecidableEq, Repr

/-- One step of the `round!` macro body (src/ripemd.rs) on the buffer
`(A, B, C, D, E)`:
`A += fn(B,C,D) + words[ord[x]] + K`; `A = ROL(A, rol[x]) + E`;
`C = ROL(C, 10)`; then `buf.rotate_right(1)`, so the next step sees
`(E, A, B, C, D)`. -/
def ripemdStep (fn : Nat → Nat → Nat → Nat) (k : Nat)
    (words ord rol : List Nat) (b : R5) (x : Nat) : R5 :=
  let a := (((b.a + fn b.b b.c b.d) % U32 + words.getD (ord.getD x 0) 0) % U32
            + k) % U32
  let a := (rotl32 (rol.getD x 0) a + b.e) % U32
  let c := rotl32 10 b.c
  ⟨b.e, a, b.b, c, b.d⟩

/-- One `round!` macro invocation: sixteen steps over the given word-order
and rotation tables.  Successive rounds compose directly on the returned
quintuple: the macro's `rotate_right(1)` of the borrow array realises
exactly the register arrangements the source passes to the next round. -/
def ripemdRound (fn : Nat → Nat → Nat → Nat) (k : Nat)
    (words ord rol : List Nat) (b : R5) : R5 :=
  (List.range 16).foldl (ripemdStep fn k words ord rol) b

/-- `process_block` of `Ripemd160` (src/ripemd.rs): build the 16-word
schedule (big-endian words, then `reverse_words` byte-swaps each one), run
the five left-line rounds and the five parallel rounds with the source's
tables, and combine into the new state. -/
def ripemd160ProcessBlock (st : R5) (block : List Nat) : R5 :=
  let words := (buildSched (blockWordSrc block) 16).map swap32
  let l :=
    ripemdRound ripemd160.j 0xa953fd4e words
      [4, 0, 5, 9, 7, 12, 2, 10, 14, 1, 3, 8, 11, 6, 15, 13]
      [9, 15, 5, 11, 6, 8, 13, 12, 5, 12, 13, 14, 11, 8, 5, 6]
      (ripemdRound ripemd160.i 0x8f1bbcdc words
        [1, 9, 11, 10, 0, 8, 12, 4, 13, 3, 7, 15, 14, 5, 6, 2]
        [11, 12, 14, 15, 14, 15, 9, 8, 9, 14, 5, 6, 8, 6, 5, 12]
        (ripemdRound ripemd160.h 0x6ed9eba1 words
          [3, 10, 14, 4, 9, 15, 8, 1, 2, 7, 0, 6, 13, 11, 5, 12]
          [11, 13, 6, 7, 14, 9, 13, 15, 14, 8, 13, 6, 5, 12, 7, 5]
          (ripemdRound ripemd160.g 0x5a827999 words
            [7, 4, 13, 1, 10, 6, 15, 3, 12, 0, 9, 5, 2, 14, 11, 8]
            [7, 6, 8, 13, 11, 9, 7, 15, 7, 12, 15, 9, 11, 7, 13, 12]
            (ripemdRound ripemd160.f 0x00000000 words
              [0, 1, 2, 3, 4, 5, 6, 7, 8, 9, 10, 11, 12, 13, 14, 15]
              [11, 14, 15, 12, 5, 8, 7, 9, 11, 13, 14, 15, 6, 7, 9, 8]
              ⟨st.a, st.b, st.c, st.d, st.e⟩))))
  let p :=
    ripemdRound ripemd160.f 0x00000000 words
      [12, 15, 10, 4, 1, 5, 8, 7, 6, 2, 13, 14, 0, 3, 9, 11]
      [8, 5, 12, 9, 12, 5, 14, 6, 8, 13, 6, 5, 15, 13, 11, 11]
      (ripemdRound ripemd160.g 0x7a6d76e9 words
        [8, 6, 4, 1, 3, 11, 15, 0, 5, 12, 2, 13, 9, 7, 10, 14]
        [15, 5, 8, 11, 14, 14, 6, 14, 6, 9, 12, 9, 12, 5, 15, 8]
        (ripemdRound ripemd160.h 0x6d703ef3 words
          [15, 5, 1, 3, 7, 14, 6, 9, 11, 8, 12, 2, 10, 0, 4, 13]
          [9, 7, 15, 11, 8, 6, 6, 14, 12, 13, 5, 14, 13, 13, 7, 5]
          (ripemdRound ripemd160.i 0x5c4dd124 words
            [6, 11, 3, 7, 0, 13, 5, 10, 14, 15, 8, 12, 4, 9, 1, 2]
            [9, 13, 15, 7, 12, 8, 9, 11, 7, 7, 12, 7, 6, 15, 13, 11]
            (ripemdRound ripemd160.j 0x50a28be6 words
              [5, 14, 7, 0, 9, 2, 11, 4, 13, 6, 15, 8, 1, 10, 3, 12]
              [8, 9, 9, 11, 13, 15, 15, 5, 7, 7, 8, 11, 14, 14, 12, 6]
              ⟨st.a, st.b, st.c, st.d, st.e⟩))))
  ⟨(p.d + l.c + st.b) % U32,
   (st.c + l.d + p.e) % U32,
   (st.d + l.e + p.a) % U32,
   (st.e + l.a + p.b) % U32,
   (st.a + l.b + p.c) % U32⟩

/-! ## The streaming engine of src/core/mod.rs

`Engine` is the struct produced by the `hash_struct!` macro, generic over
the register-state type.  Its `buffer` field models the *live region* of the
source's fixed `[u8; BLOCKSIZE]` array: the `length % BLOCKSIZE` bytes
written since the last processed block (see the header comment). -/

/-- A streaming hash engine: live buffer region, total absorbed length (in
bytes for the src/core/mod.rs revision, in bits for the src/ripemd.rs
revision), and the register state. -/
structure Engine (σ : Type) where
  buffer : List Nat
  length : Nat
  state : σ
deriving DecidableEq, Repr

/-- `Default::default()` / `reset` of the engines (`impl_default!` and
`iconst_funcs!` in src/core/mod.rs): empty buffer (the zeroed physical
array has an empty live region), length `0`, state from the initial
constants. -/
def engineNew {σ : Type} (iv : σ) : Engine σ := ⟨[], 0, iv⟩

/-- One byte of absorption, used to characterise the `input` loop: write the
byte at the current buffer position, bump `length`, and process a block when
`length` reaches a multiple of `B`. -/
def input1 {σ : Type} (B : Nat) (p : σ → List Nat → σ) (e : Engine σ)
    (x : Nat) : Engine σ :=
  if (e.length + 1) % B = 0 then
    ⟨[], e.length + 1, p e.state (e.buffer ++ [x])⟩
  else
    ⟨e.buffer ++ [x], e.length + 1, e.state⟩

/-- The `input` loop of `input_func!` (src/core/mod.rs, lines 144-173),
translated iteration by iteration: while input remains, copy
`to_write = min(BLOCKSIZE - length % BLOCKSIZE, input.len())` bytes into the
buffer, add `to_write` to `length`, process the buffer as a block when
`length % BLOCKSIZE` becomes zero, and drop the copied bytes from the
input.  The fuel argument only bounds the number of iterations; each
iteration consumes at least one byte, so fuel `data.length` suffices. -/
def inputGo {σ : Type} (B : Nat) (p : σ → List Nat → σ) :
    Nat → Engine σ → List Nat → Engine σ
  | _, e, [] => e
  | 0, e, _ :: _ => e
  | fu + 1, e, x :: rest =>
    let data := x :: rest
    let bufferIndex := e.length % B
    let r := B - bufferIndex
    let toWrite := min r data.length
    let len' := e.length + toWrite
    let e' : Engine σ :=
      if len' % B = 0 then ⟨[], len', p e.state (e.buffer ++ data.take toWrite)⟩
      else ⟨e.buffer ++ data.take toWrite, len', e.state⟩
    inputGo B p fu e' (data.drop toWrite)

/-- `input` of the src/core/mod.rs engines. -/
def engineInput {σ : Type} (B : Nat) (p : σ → List Nat → σ) (e : Engine σ)
    (data : List Nat) : Engine σ :=
  inputGo B p data.length e data

/-- `midstate` (`midstate_funcs!` in src/core/mod.rs): the entire register
state, no registers omitted. -/
def engineMidstate {σ : Type} (e : Engine σ) : σ := e.state

/-- The mutation performed by `from_midstate` after its alignment assert:
set `length` and the state.  The physical buffer is untouched, but because
the new length is a multiple of `BLOCKSIZE` its live region is empty. -/
def engineFromMidstateSet {σ : Type} (_e : Engine σ) (ms : σ) (len : Nat) :
    Engine σ :=
  ⟨[], len, ms⟩

/-- `from_midstate` (`midstate_funcs!` in src/core/mod.rs, lines 131-139):
`assert_eq!(length % BLOCKSIZE, 0)` — the panic on an unaligned length is
modelled as `none` — then set `length` and the register state. -/
def engineFromMidstate {σ : Type} (B : Nat) (e : Engine σ) (ms : σ)
    (len : Nat) : Option (Engine σ) :=
  if len % B = 0 then some (engineFromMidstateSet e ms len) else none

/-! ## The RIPEMD-160 engine (src/ripemd.rs)

`Ripemd160` is an `Engine R5` whose `length` counts *bits*.  `input` is the
streaming input of this revision (cf. `Sha256m::input` in src/sha2.rs):
extend the buffer, add `data.len() * 8` to `length`, and process leading
64-byte blocks while the buffer holds at least one. -/

/-- The `while self.buffer.len() >= Self::BLOCKSIZE` processing loop of the
streaming revision (cf. `Sha256m::input`): process the first 64 buffered
bytes as a block and `split_off` them, repeatedly.  Fuel bounds the
iterations; `buffer.length` suffices. -/
def processGo {σ : Type} (p : σ → List Nat → σ) :
    Nat → Engine σ → Engine σ
  | 0, e => e
  | fu + 1, e =>
    if 64 ≤ e.buffer.length then
      processGo p fu ⟨e.buffer.drop 64, e.length, p e.state (e.buffer.take 64)⟩
    else e

/-- `input` of `Ripemd160`. -/
def ripemd160Input (e : Engine R5) (data : List Nat) : Engine R5 :=
  processGo ripemd160ProcessBlock (e.buffer.length + data.length)
    ⟨e.buffer ++ data, e.length + 8 * data.length, e.state⟩

/-- `Ripemd160::new()` = `Self::default()`. -/
def ripemd160New : Engine R5 :=
  ⟨[], 0, ⟨0x67452301, 0xefcdab89, 0x98badcfe, 0x10325476, 0xc3d2e1f0⟩⟩

/-- `Ripemd160::pad_fbuffer` (src/ripemd.rs, lines 176-193): buffered tail,
then `0x80`, then `0x00`s until the length is `56 mod 64`, then
`self.length.to_le_bytes()` (8 bytes, little-endian). -/
def ripemd160PadFbuffer (e : Engine R5) : List Nat :=
  padTo56 (e.buffer ++ [0x80]) ++ toBytesLE64 e.length

/-- The final blocks processed by `Ripemd160::finalise`. -/
def ripemd160FinalBlocks (e : Engine R5) : List (List Nat) :=
  (splitB (ripemd160PadFbuffer e)).1

/-- Serialisation of the final state: `state.read().iter().flat_map(to_le_bytes)`
(src/ripemd.rs, `finalise`). -/
def r5DigestLE (st : R5) : List Nat :=
  (([st.a, st.b, st.c, st.d, st.e]).map toBytesLE32).flatten

/-- `Ripemd160::finalise` (src/ripemd.rs, lines 48-67): process the padded
final blocks and concatenate the five state registers in little-endian
order. -/
def ripemd160Finalise (e : Engine R5) : List Nat :=
  r5DigestLE ((ripemd160FinalBlocks e).foldl ripemd160ProcessBlock e.state)

/-- The claim's description of the RIPEMD-160 digest of a message `M`: `M`,
then `0x80`, then `0x00`s until the length is `56 = 64 - 8 mod 64`, then the
total absorbed length in bits (`8 * M.length`) as an 8-byte little-endian
integer; the padded blocks processed from the initial constants; the digest
the five registers concatenated in little-endian order. -/
def ripemd160SpecDigest (M : List Nat) : List Nat :=
  r5DigestLE
    ((splitB (padTo56 (M ++ [0x80]) ++ toBytesLE64 (8 * M.length))).1.foldl
      ripemd160ProcessBlock ripemd160New.state)

/-! ## HMAC (src/hmac.rs)

`Hmac<T>` is generic over the underlying hash engine `T`; here the engine
is the src/core/mod.rs `Engine σ` together with its blocksize `B`,
`process_block` `p`, initial constants `iv` and finalisation `finT`
(the per-primitive `finalise` of `T`). -/

section Hmac

variable {σ : Type} (B : Nat) (p : σ → List Nat → σ) (iv : σ)
variable (finT : Engine σ → List Nat)

/-- The HMAC engine: inner and outer hash engines, the cached pair of keyed
midstates (`istate`), and the unused `msg_buffer`. -/
structure HmacEngine (σ : Type) where
  inner : Engine σ
  outer : Engine σ
  istate : σ × σ
  msgBuffer : List Nat
deriving DecidableEq, Repr

/-- Key priming of `Hmac::new_with_key` (src/hmac.rs, lines 125-136): if the
key is longer than the blocksize replace it by its hash (a fresh `T` engine
fed the key, then finalised), then right-pad with `0x00` to the
blocksize. -/
def primeKey (key : List Nat) : List Nat :=
  let k := if B < key.length
           then finT (engineInput B p (engineNew iv) key) else key
  if k.length < B then k ++ List.replicate (B - k.length) 0 else k

/-- `opad_key`: each primed-key byte XORed with `OPAD = 0x5c`. -/
def opadKey (key : List Nat) : List Nat :=
  (primeKey B p iv finT key).map (fun x => x ^^^ 0x5c)

/-- `ipad_key`: each primed-key byte XORed with `IPAD = 0x36`. -/
def ipadKey (key : List Nat) : List Nat :=
  (primeKey B p iv finT key).map (fun x => x ^^^ 0x36)

/-- `Hmac::new_with_key` (src/hmac.rs, lines 119-157): feed the ipad-key
into a fresh inner engine and the opad-key into a fresh outer engine, and
cache both midstates as `istate`. -/
def hmacNewWithKey (key : List Nat) : HmacEngine σ :=
  let inner := engineInput B p (engineNew iv) (ipadKey B p iv finT key)
  let outer := engineInput B p (engineNew iv) (opadKey B p iv finT key)
  ⟨inner, outer, (engineMidstate inner, engineMidstate outer), []⟩

/-- `Hmac::input`: forward the bytes to the inner engine. -/
def hmacInput (e : HmacEngine σ) (data : List Nat) : HmacEngine σ :=
  { e with inner := engineInput B p e.inner data }

/-- `Hmac::finalise` (src/hmac.rs, lines 113-116): absorb the inner digest
into the outer engine and return the outer digest. -/
def hmacFinalise (e : HmacEngine σ) : List Nat :=
  finT (engineInput B p e.outer (finT e.inner))

/-- `Hmac::reset` (src/hmac.rs, lines 90-94): restore the inner and outer
engines from the cached midstates at absorbed length `BLOCKSIZE` (the
alignment assert of `from_midstate` holds since `B % B = 0`), and clear the
message buffer. -/
def hmacReset (e : HmacEngine σ) : HmacEngine σ :=
  { e with
      inner := engineFromMidstateSet e.inner e.istate.1 B
      outer := engineFromMidstateSet e.outer e.istate.2 B
      msgBuffer := [] }

/-- `H(x)` for the underlying engine: a fresh engine fed `x`, finalised. -/
def hashAll (x : List Nat) : List Nat := finT (engineInput B p (engineNew iv) x)

/-- The claim's `K'`: `K` hashed with `H` if `|K|` exceeds the blocksize,
then right-padded with `0x00` bytes to exactly `B` bytes. -/
def primeKeySpec (key : List Nat) : List Nat :=
  let k := if B < key.length then hashAll B p iv finT key else key
  k ++ List.replicate (B - k.length) 0

/-- The claim's HMAC value: `H((K' ⊕ opad) ∥ H((K' ⊕ ipad) ∥ M))`, with
`ipad`/`opad` the blocksize-long repetitions of `0x36`/`0x5c`. -/
def hmacSpec (key M : List Nat) : List Nat :=
  let k := primeKeySpec B p iv finT key
  hashAll B p iv finT
    (List.zipWith (fun a b => a ^^^ b) k (List.replicate B 0x5c) ++
      hashAll B p iv finT
        (List.zipWith (fun a b => a ^^^ b) k (List.replicate B 0x36) ++ M))

end Hmac

/-! ## PBKDF2 (src/pbkdf2.rs)

`PBKDF2<T>` is generic over a keyed hash engine `T` (in the library, an
HMAC); here the engine is the triple of its `new_with_key`, `input` and
`finalise` operations. -/

section Pbkdf2

variable {P : Type} (prfNew : List Nat → P) (prfInput : P → List Nat → P)
variable (prfFin : P → List Nat)

/-- The internal state of a `PBKDF2` engine: password, salt and iteration
count.  (`input` extends the password, `input_salt` the salt, `iter` sets
the count; `finalise` reads all three.) -/
structure PbkdfState where
  password : List Nat
  salt : List Nat
  iter : Nat
deriving DecidableEq, Repr

/-- The `u` values built by `f_compression` (src/pbkdf2.rs, lines 29-41):
`u[0]` is the digest of a freshly keyed engine fed the salt and then the
four-byte big-endian counter `1`; `u[i]` is the digest of a freshly keyed
engine fed `u[i-1]`. -/
def pbkdfU (password salt : List Nat) : Nat → List Nat
  | 0 => prfFin (prfInput (prfInput (prfNew password) salt) (toBytesBE32 1))
  | n + 1 => prfFin (prfInput (prfNew password) (pbkdfU password salt n))

/-- The vector `u` after the `for i in 1..self.iter` loop: `u[0]` followed
by `u[1] .. u[iter-1]` (for `iter = 0` the loop body never runs and the
vector is just `[u[0]]`). -/
def pbkdfUVec (password salt : List Nat) (iter : Nat) : List (List Nat) :=
  pbkdfU prfNew prfInput prfFin password salt 0 ::
    (List.range (iter - 1)).map
      (fun i => pbkdfU prfNew prfInput prfFin password salt (i + 1))

/-- The `while u.len() != 1` XOR-folding loop of `f_compression`: replace
the first element by its byte-wise XOR with the second and remove the
second, until one element remains.  Fuel bounds the iterations; the list
length suffices. -/
def xorGo : Nat → List (List Nat) → List Nat
  | _, [] => []
  | _, [x] => x
  | 0, x :: _ :: _ => x
  | fu + 1, x :: y :: rest =>
    xorGo fu (List.zipWith (fun a b => a ^^^ b) x y :: rest)

/-- The XOR-fold of the `u` vector. -/
def xorReduce (u : List (List Nat)) : List Nat := xorGo u.length u

/-- `PBKDF2::f_compression` (src/pbkdf2.rs, lines 29-63). -/
def pbkdf2FCompression (e : PbkdfState) : List Nat :=
  xorReduce (pbkdfUVec prfNew prfInput prfFin e.password e.salt e.iter)

/-- `PBKDF2::finalise` (src/pbkdf2.rs, lines 92-98): return
`f_compression(&self)`.  The method takes `&mut self` but assigns no field,
so the engine state is returned unchanged alongside the digest. -/
def pbkdf2Finalise (e : PbkdfState) : List Nat × PbkdfState :=
  (pbkdf2FCompression prfNew prfInput prfFin e, e)

end Pbkdf2

/-- The claim's `U_j` sequence for PBKDF2 over a given HMAC digest
function: `U_1 = HMAC_P(S ∥ INT32BE(1))` and `U_j = HMAC_P(U_{j-1})`
(indices shifted down by one). -/
def pbkdf2SpecU (hmacP : List Nat → List Nat) (salt : List Nat) :
    Nat → List Nat
  | 0 => hmacP (salt ++ toBytesBE32 1)
  | j + 1 => hmacP (pbkdf2SpecU hmacP salt j)

/-- The claim's PBKDF2 output `T = U_1 ⊕ U_2 ⊕ … ⊕ U_c` (byte-wise XOR,
folded left). -/
def pbkdf2SpecT (hmacP : List Nat → List Nat) (salt : List Nat) (c : Nat) :
    List Nat :=
  (List.range (c - 1)).foldl
    (fun acc j =>
      List.zipWith (fun a b => a ^^^ b) acc (pbkdf2SpecU hmacP salt (j + 1)))
    (pbkdf2SpecU hmacP salt 0)

/-! ## SHA-256 over the src/core/mod.rs engine -/

/-- `process_block` of the streaming SHA-256 engine working on `Regs`. -/
def sha256P : Regs → List Nat → Regs := sha256ProcessBlock sha256K

/-- Modelled from the spec: §4.4/§4.5 `finalise` for the SHA-256 engine of
the src/core/mod.rs revision (its per-primitive `finalise` is missing from
src): pad the buffered tail with `0x80` and zeros to `56 mod 64`, append
the absorbed length in bits (`8 * length` for the byte-counting engine) as
8 big-endian bytes, process the final blocks, and concatenate the eight
registers big-endian. -/
def sha256EngineFinalise (e : Engine Regs) : List Nat :=
  sha256Extract
    ((splitB (padTo56 (e.buffer ++ [0x80]) ++ toBytesBE64 (8 * e.length))).1.foldl
      sha256P e.state)

/-- A fresh streaming SHA-256 engine. -/
def sha256EngineNew : Engine Regs := engineNew SHA256_INITIAL_CONSTANTS

/-! ## Lemmas: the input loop processes bytes one at a time -/

section InputLemmas

variable {σ : Type} {B : Nat} {p : σ → List Nat → σ}

/-- Shifting an addend into the residue: `(len + k) % B = (len % B + k) % B`. -/
theorem mod_add_shift (B len k : Nat) : (len + k) % B = (len % B + k) % B := by
  conv_lhs => rw [← Nat.div_add_mod len B, Nat.add_assoc, Nat.mul_add_mod]

/-- A chunk that fits in the remaining buffer space is absorbed exactly as
one iteration of the `input` loop absorbs it. -/
theorem foldl_input1_chunk (hB : 0 < B) :
    ∀ (c : List Nat) (e : Engine σ), c ≠ [] → c.length ≤ B - e.length % B →
    c.foldl (input1 B p) e =
      if (e.length + c.length) % B = 0 then
        ⟨[], e.length + c.length, p e.state (e.buffer ++ c)⟩
      else ⟨e.buffer ++ c, e.length + c.length, e.state⟩ := by
  intro c
  induction c with
  | nil => intro e hne _; exact absurd rfl hne
  | cons x c' ih =>
    intro e _ hlen
    have ha : e.length % B < B := Nat.mod_lt _ hB
    by_cases hc' : c' = []
    · subst hc'
      show input1 B p e x = _
      unfold input1
      simp only [List.length_cons, List.length_nil, Nat.zero_add]
    · have h1 : 0 < c'.length := List.length_pos.mpr hc'
      have hxc : (x :: c').length = c'.length + 1 := rfl
      have hlt : e.length % B + 1 < B := by omega
      have hmod : (e.length + 1) % B = e.length % B + 1 := by
        rw [mod_add_shift]; exact Nat.mod_eq_of_lt hlt
      have hne0 : (e.length + 1) % B ≠ 0 := by rw [hmod]; omega
      have hstep : input1 B p e x = ⟨e.buffer ++ [x], e.length + 1, e.state⟩ := by
        unfold input1; rw [if_neg hne0]
      have hlen' : c'.length ≤
          B - (⟨e.buffer ++ [x], e.length + 1, e.state⟩ : Engine σ).length % B := by
        show c'.length ≤ B - (e.length + 1) % B
        rw [hmod]; omega
      rw [List.foldl_cons, hstep,
        ih ⟨e.buffer ++ [x], e.length + 1, e.state⟩ hc' hlen']
      have h2 : e.length + 1 + c'.length = e.length + (x :: c').length := by
        rw [hxc]; omega
      have h3 : (e.buffer ++ [x]) ++ c' = e.buffer ++ (x :: c') := by simp
      simp only [h2, h3]

/-- The `input` loop equals byte-at-a-time absorption. -/
theorem inputGo_eq_foldl (hB : 0 < B) :
    ∀ (fu : Nat) (e : Engine σ) (d : List Nat), d.length ≤ fu →
    inputGo B p fu e d = d.foldl (input1 B p) e := by
  intro fu
  induction fu with
  | zero =>
    intro e d hd
    have : d = [] := List.eq_nil_of_length_eq_zero (Nat.le_zero.mp hd)
    subst this; rfl
  | succ fu ih =>
    intro e d hd
    match d with
    | [] => rfl
    | x :: rest =>
      have ha : e.length % B < B := Nat.mod_lt _ hB
      have hxr : (x :: rest).length = rest.length + 1 := rfl
      have hgo : inputGo B p (fu + 1) e (x :: rest) =
          inputGo B p fu
            (if (e.length + min (B - e.length % B) (x :: rest).length) % B = 0
             then ⟨[], e.length + min (B - e.length % B) (x :: rest).length,
                   p e.state (e.buffer ++
                     (x :: rest).take (min (B - e.length % B) (x :: rest).length))⟩
             else ⟨e.buffer ++
                     (x :: rest).take (min (B - e.length % B) (x :: rest).length),
                   e.length + min (B - e.length % B) (x :: rest).length,
                   e.state⟩)
            ((x :: rest).drop (min (B - e.length % B) (x :: rest).length)) := rfl
      set tw := min (B - e.length % B) (x :: rest).length with htw
      have htw1 : 1 ≤ tw := by omega
      have htwlen : tw ≤ (x :: rest).length := by omega
      have htake : ((x :: rest).take tw).length = tw := by
        rw [List.length_take]; omega
      have hchunk := foldl_input1_chunk (p := p) hB ((x :: rest).take tw) e
        (by
          intro hnil
          have hh := congrArg List.length hnil
          rw [htake] at hh
          simp at hh
          omega)
        (by rw [htake]; omega)
      rw [htake] at hchunk
      have hdrop : ((x :: rest).drop tw).length = (x :: rest).length - tw :=
        List.length_drop _ _
      calc inputGo B p (fu + 1) e (x :: rest)
          = inputGo B p fu (((x :: rest).take tw).foldl (input1 B p) e)
              ((x :: rest).drop tw) := by rw [hgo, hchunk]
        _ = ((x :: rest).drop tw).foldl (input1 B p)
              (((x :: rest).take tw).foldl (input1 B p) e) := by
              apply ih
              omega
        _ = (x :: rest).foldl (input1 B p) e := by
              rw [← List.foldl_append, List.take_append_drop]

/-- `engineInput` equals byte-at-a-time absorption. -/
theorem engineInput_eq_foldl (hB : 0 < B) (e : Engine σ) (d : List Nat) :
    engineInput B p e d = d.foldl (input1 B p) e :=
  inputGo_eq_foldl hB d.length e d le_rfl

/-- Absorbing a concatenation equals absorbing the parts in order. -/
theorem engineInput_append (hB : 0 < B) (e : Engine σ) (a b : List Nat) :
    engineInput B p e (a ++ b) = engineInput B p (engineInput B p e a) b := by
  simp [engineInput_eq_foldl hB, List.foldl_append]

/-- `input` adds the number of absorbed bytes to `length`. -/
theorem engineInput_length (hB : 0 < B) (e : Engine σ) (d : List Nat) :
    (engineInput B p e d).length = e.length + d.length := by
  rw [engineInput_eq_foldl hB]
  induction d generalizing e with
  | nil => simp
  | cons x d' ih =>
    rw [List.foldl_cons, ih]
    have h1 : (input1 B p e x).length = e.length + 1 := by
      unfold input1; split <;> rfl
    rw [h1, List.length_cons]
    omega

/-- The engine invariant: the live buffer region has `length % B` bytes. -/
theorem engineInput_buffer (hB : 0 < B) (e : Engine σ) (d : List Nat)
    (h : e.buffer.length = e.length % B) :
    (engineInput B p e d).buffer.length = (engineInput B p e d).length % B := by
  rw [engineInput_eq_foldl hB]
  induction d generalizing e with
  | nil => simpa using h
  | cons x d' ih =>
    rw [List.foldl_cons]
    apply ih
    unfold input1
    by_cases hc : (e.length + 1) % B = 0
    · simp [hc]
    · have ha : e.length % B < B := Nat.mod_lt _ hB
      have hlt : e.length % B + 1 < B := by
        rcases Nat.lt_or_ge (e.length % B + 1) B with h' | h'
        · exact h'
        · exfalso
          have hB' : e.length % B + 1 = B := by omega
          have : (e.length + 1) % B = 0 := by
            rw [mod_add_shift, hB', Nat.mod_self]
          exact hc this
      have hmod : (e.length + 1) % B = e.length % B + 1 := by
        rw [mod_add_shift]; exact Nat.mod_eq_of_lt hlt
      simp [hc, hmod, h]

end InputLemmas

/-! ## Claims C1, C6, C7: the streaming engine of src/core/mod.rs -/

/-- Feeding chunks one at a time equals feeding their concatenation. -/
theorem foldl_engineInput_flatten {σ : Type} {B : Nat} {p : σ → List Nat → σ}
    (hB : 0 < B) (chunks : List (List Nat)) (e : Engine σ) :
    chunks.foldl (engineInput B p) e = engineInput B p e chunks.flatten := by
  induction chunks generalizing e with
  | nil => rfl
  | cons c cs ih =>
    rw [List.foldl_cons, ih, List.flatten_cons, engineInput_append hB]

/-- Claim C1: for every byte message and every way of splitting it into
consecutive chunks, feeding the chunks one at a time via `input` to a single
fresh hash engine and then finalising yields the same digest as feeding the
whole message in a single `input` call and finalising.  Stated for the
engine of src/core/mod.rs, generically over the blocksize `B`, the
`process_block` function `p`, the initial constants `iv` and the
finalisation `finT`; the message is `chunks.flatten`. -/
theorem claim_C1 {σ : Type} (B : Nat) (p : σ → List Nat → σ) (iv : σ)
    (finT : Engine σ → List Nat) (chunks : List (List Nat)) (hB : 0 < B) :
    finT (chunks.foldl (engineInput B p) (engineNew iv)) =
      finT (engineInput B p (engineNew iv) chunks.flatten) := by
  rw [foldl_engineInput_flatten hB]

/-- Witness for claim C1 at a concrete instance. -/
theorem claim_C1_witness :
    0 < 64 ∧
    (fun e : Engine Nat => e.buffer ++ [e.length])
        ([[1, 2], [3]].foldl (engineInput 64 (fun s b => s + b.length))
          (engineNew 0)) =
      (fun e : Engine Nat => e.buffer ++ [e.length])
        (engineInput 64 (fun s b => s + b.length) (engineNew 0)
          [[1, 2], [3]].flatten) :=
  ⟨by decide,
   claim_C1 64 (fun s b => s + b.length) 0 (fun e => e.buffer ++ [e.length])
     [[1, 2], [3]] (by decide)⟩

/-- Claim C6: if an engine `E` has absorbed a block-aligned amount of data
and a second engine is built by restoring `midstate(E)` at that length via
`from_midstate`, then after both absorb the same tail bytes they finalise to
the same digest (for any finalisation function).  The restore also
succeeds (no `MIDSTATE_UNALIGNED` failure). -/
theorem claim_C6 {σ : Type} (B : Nat) (p : σ → List Nat → σ) (iv : σ)
    (finT : Engine σ → List Nat) (e₀ : Engine σ) (M tail : List Nat)
    (hB : 0 < B) (hM : M.length % B = 0) :
    engineFromMidstate B e₀
        (engineMidstate (engineInput B p (engineNew iv) M)) M.length =
      some (engineFromMidstateSet e₀
        (engineMidstate (engineInput B p (engineNew iv) M)) M.length) ∧
    finT (engineInput B p
        (engineFromMidstateSet e₀
          (engineMidstate (engineInput B p (engineNew iv) M)) M.length) tail) =
      finT (engineInput B p (engineInput B p (engineNew iv) M) tail) := by
  have hlen : (engineInput B p (engineNew iv) M).length = M.length := by
    rw [engineInput_length hB]; simp [engineNew]
  have hbuflen : (engineInput B p (engineNew iv) M).buffer.length = 0 := by
    have hh := engineInput_buffer (p := p) hB (engineNew iv) M
      (by simp [engineNew])
    rw [hlen, hM] at hh
    exact hh
  have hbuf : (engineInput B p (engineNew iv) M).buffer = [] :=
    List.eq_nil_of_length_eq_zero hbuflen
  have hset : engineFromMidstateSet e₀
      (engineMidstate (engineInput B p (engineNew iv) M)) M.length =
      engineInput B p (engineNew iv) M := by
    show (⟨[], M.length, (engineInput B p (engineNew iv) M).state⟩ : Engine σ) = _
    conv_rhs => rw [show engineInput B p (engineNew iv) M =
      ⟨(engineInput B p (engineNew iv) M).buffer,
       (engineInput B p (engineNew iv) M).length,
       (engineInput B p (engineNew iv) M).state⟩ from rfl]
    rw [hbuf, hlen]
  exact ⟨by simp [engineFromMidstate, hM], by rw [hset]⟩

/-- Witness for claim C6 at a concrete instance. -/
theorem claim_C6_witness :
    0 < 4 ∧ [1, 2, 3, 4].length % 4 = 0 ∧
    (engineFromMidstate 4 (⟨[9], 3, 7⟩ : Engine Nat)
        (engineMidstate (engineInput 4 (fun s b => s + b.length)
          (engineNew 0) [1, 2, 3, 4])) [1, 2, 3, 4].length =
      some (engineFromMidstateSet (⟨[9], 3, 7⟩ : Engine Nat)
        (engineMidstate (engineInput 4 (fun s b => s + b.length)
          (engineNew 0) [1, 2, 3, 4])) [1, 2, 3, 4].length) ∧
    (fun e : Engine Nat => [e.state, e.length])
        (engineInput 4 (fun s b => s + b.length)
          (engineFromMidstateSet (⟨[9], 3, 7⟩ : Engine Nat)
            (engineMidstate (engineInput 4 (fun s b => s + b.length)
              (engineNew 0) [1, 2, 3, 4])) [1, 2, 3, 4].length) [5]) =
      (fun e : Engine Nat => [e.state, e.length])
        (engineInput 4 (fun s b => s + b.length)
          (engineInput 4 (fun s b => s + b.length)
            (engineNew 0) [1, 2, 3, 4]) [5])) :=
  ⟨by decide, by decide,
   claim_C6 4 (fun s b => s + b.length) 0 (fun e => [e.state, e.length])
     ⟨[9], 3, 7⟩ [1, 2, 3, 4] [5] (by decide) (by decide)⟩

/-- Claim C7: `from_midstate(snapshot, absorbed_length)` fails (the
`assert_eq!(length % BLOCKSIZE, 0)` panic, modelled as `none`) when the
length is not block-aligned, and otherwise sets the register state to the
snapshot, the length counter to the given length, and leaves the buffer
with an empty live region. -/
theorem claim_C7 {σ : Type} (B : Nat) (e₀ : Engine σ) (ms : σ) (len : Nat) :
    (len % B ≠ 0 → engineFromMidstate B e₀ ms len = none) ∧
    (len % B = 0 → engineFromMidstate B e₀ ms len = some ⟨[], len, ms⟩) := by
  constructor <;> intro h <;>
    simp [engineFromMidstate, engineFromMidstateSet, h]

/-- Witness for claim C7 at concrete instances of both cases. -/
theorem claim_C7_witness :
    (5 % 4 ≠ 0 ∧ engineFromMidstate 4 (⟨[1], 1, 5⟩ : Engine Nat) 9 5 = none) ∧
    (8 % 4 = 0 ∧
      engineFromMidstate 4 (⟨[1], 1, 5⟩ : Engine Nat) 9 8 = some ⟨[], 8, 9⟩) :=
  ⟨⟨by decide, (claim_C7 4 ⟨[1], 1, 5⟩ 9 5).1 (by decide)⟩,
   ⟨by decide, (claim_C7 4 ⟨[1], 1, 5⟩ 9 8).2 (by decide)⟩⟩

/-! ## Claim C2: SHA-256/224 schedule and compression -/

/-- Reversing a chunk and reading it little-endian (the source's
`chunk.reverse(); transmute` on a little-endian host) is the big-endian
reading of the chunk. -/
theorem fromBytesLE_reverse (l : List Nat) : fromBytesLE l.reverse = fromBytesBE l := by
  unfold fromBytesLE fromBytesBE
  rw [List.foldr_reverse]
  suffices hgen : ∀ a : Nat,
      l.foldl (fun x y => y + x * 256) a = l.foldl (fun acc b => acc * 256 + b) a
    from hgen 0
  induction l with
  | nil => intro a; rfl
  | cons x xs ih =>
    intro a
    rw [List.foldl_cons, List.foldl_cons, Nat.add_comm (x) (a * 256)]
    exact ih _

/-- The schedule builder only depends on the 16 base words. -/
theorem buildSched_congr (m1 m2 : Nat → Nat) (h : ∀ i, m1 i = m2 i) :
    ∀ n, buildSched m1 n = buildSched m2 n := by
  intro n
  induction n with
  | zero => rfl
  | succ n ih =>
    unfold buildSched
    rw [ih, h n]

/-- The source and spec message schedules agree on every block. -/
theorem messageSchedule_eq (block : List Nat) :
    messageScheduleSrc block = messageScheduleSpec block := by
  unfold messageScheduleSrc messageScheduleSpec
  exact buildSched_congr _ _
    (fun i => fromBytesLE_reverse ((block.drop (4 * i)).take 4)) 64

/-- One source round equals one spec round: the nested `wrapping_add`s of
`t1` collapse to a single sum modulo `2^32`, and the source's sequential
register assignments realise the claim's simultaneous shift. -/
theorem sha2Round_eq (k w : Nat) (r : Regs) :
    sha2RoundSrc k w r = sha2RoundSpec k w r := by
  unfold sha2RoundSrc sha2RoundSpec
  have ht1 : ((((usigma1 r.e + choice r.e r.f r.g) % U32 + r.h) % U32 + k) % U32
        + w) % U32
      = (r.h + usigma1 r.e + choice r.e r.f r.g + k + w) % U32 := by
    unfold U32; omega
  rw [ht1]

/-- Claim C2: for every 64-byte block, SHA-256/SHA-224 `process_block`
first builds the schedule from the block's sixteen 4-byte big-endian words
extended by `W[i] = σ1(W[i-2]) + W[i-7] + σ0(W[i-15]) + W[i-16] (mod 2^32)`,
then runs 64 compression rounds computing
`T1 = h + Σ1(e) + Choice(e,f,g) + K[i] + W[i]`,
`T2 = Σ0(a) + Majority(a,b,c)` with the shift
`h,g,f,e,d,c,b,a = g,f,e,d+T1,c,b,a,T1+T2`, and finally adds the round
result component-wise (wrapping) into the prior state vector: the source
translation `sha256ProcessBlock` equals the claim-worded
`sha256ProcessBlockSpec` for every round-constant table, state and block. -/
theorem claim_C2 (k : Nat → Nat) (st : Regs) (block : List Nat) :
    sha256ProcessBlock k st block = sha256ProcessBlockSpec k st block := by
  simp only [sha256ProcessBlock, sha256ProcessBlockSpec]
  rw [messageSchedule_eq]
  have hround : (fun (r : Regs) (i : Nat) =>
        sha2RoundSrc (k i) ((messageScheduleSpec block).getD i 0) r)
      = fun (r : Regs) (i : Nat) =>
        sha2RoundSpec (k i) ((messageScheduleSpec block).getD i 0) r := by
    funext r i
    exact sha2Round_eq _ _ _
  rw [hround]

/-! ## Lemmas: block splitting and the padding loop -/

/-- The block-splitting worker is fuel-irrelevant once fuel covers the
length. -/
theorem splitGo_fuel :
    ∀ fu fu' (l : List Nat), l.length ≤ fu → l.length ≤ fu' →
    splitGo fu l = splitGo fu' l := by
  intro fu
  induction fu with
  | zero =>
    intro fu' l h _
    have hl : l = [] := List.eq_nil_of_length_eq_zero (Nat.le_zero.mp h)
    subst hl
    cases fu' <;> simp [splitGo]
  | succ fu ih =>
    intro fu' l h h'
    by_cases h64 : 64 ≤ l.length
    · cases fu' with
      | zero => omega
      | succ fu'' =>
        have hdrop : (l.drop 64).length = l.length - 64 := List.length_drop _ _
        simp only [splitGo, if_pos h64]
        rw [ih fu'' (l.drop 64) (by omega) (by omega)]
    · cases fu' with
      | zero =>
        have hl : l = [] := List.eq_nil_of_length_eq_zero (by omega)
        subst hl
        simp [splitGo]
      | succ fu'' => simp only [splitGo, if_neg h64]

/-- Unfolding `splitB` on a list holding at least one block. -/
theorem splitB_ge {l : List Nat} (h : 64 ≤ l.length) :
    splitB l = (l.take 64 :: (splitB (l.drop 64)).1, (splitB (l.drop 64)).2) := by
  unfold splitB
  obtain ⟨n, hn⟩ : ∃ n, l.length = n + 1 := ⟨l.length - 1, by omega⟩
  rw [hn]
  simp only [splitGo, if_pos h]
  rw [splitGo_fuel n (l.drop 64).length (l.drop 64)
    (by rw [List.length_drop]; omega) le_rfl]

/-- `splitB` on a list shorter than a block. -/
theorem splitB_lt {l : List Nat} (h : l.length < 64) : splitB l = ([], l) := by
  unfold splitB
  cases hll : l.length with
  | zero => rfl
  | succ n =>
    simp only [splitGo]
    rw [if_neg (by omega)]

/-- Splitting after a block-aligned prefix splits the prefix and the rest
independently. -/
theorem splitB_append :
    ∀ fu (A : List Nat), A.length ≤ fu → A.length % 64 = 0 → ∀ C : List Nat,
    splitB (A ++ C) = ((splitB A).1 ++ (splitB C).1, (splitB C).2) := by
  intro fu
  induction fu with
  | zero =>
    intro A h _ C
    have hA : A = [] := List.eq_nil_of_length_eq_zero (Nat.le_zero.mp h)
    subst hA
    simp [splitB_lt (by simp : ([] : List Nat).length < 64)]
  | succ fu ih =>
    intro A h hmod C
    by_cases hA : A = []
    · subst hA
      simp [splitB_lt (by simp : ([] : List Nat).length < 64)]
    · have hApos : 0 < A.length := List.length_pos.mpr hA
      have h64 : 64 ≤ A.length := by omega
      have h64' : 64 ≤ (A ++ C).length := by rw [List.length_append]; omega
      have ht : (A ++ C).take 64 = A.take 64 := by
        rw [List.take_append_eq_append_take]
        have h0 : 64 - A.length = 0 := by omega
        rw [h0, List.take_zero, List.append_nil]
      have hd : (A ++ C).drop 64 = A.drop 64 ++ C := by
        rw [List.drop_append_eq_append_drop]
        have h0 : 64 - A.length = 0 := by omega
        rw [h0, List.drop_zero]
      rw [splitB_ge h64', splitB_ge h64, ht, hd,
        ih (A.drop 64) (by rw [List.length_drop]; omega)
          (by rw [List.length_drop]; omega) C]
      simp

/-- Recomposition facts for `splitB`: the blocks flatten back (with the
tail) to the original list, the flattened blocks are block-aligned, the
tail is shorter than a block, and re-splitting the flattened blocks
recovers them. -/
theorem splitB_recompose :
    ∀ fu (l : List Nat), l.length ≤ fu →
    (splitB l).1.flatten ++ (splitB l).2 = l ∧
    (splitB l).1.flatten.length % 64 = 0 ∧
    (splitB l).2.length < 64 ∧
    splitB (splitB l).1.flatten = ((splitB l).1, []) := by
  intro fu
  induction fu with
  | zero =>
    intro l h
    have hl : l = [] := List.eq_nil_of_length_eq_zero (Nat.le_zero.mp h)
    subst hl
    have h0 : splitB ([] : List Nat) = ([], []) := splitB_lt (by simp)
    refine ⟨?_, ?_, ?_, ?_⟩ <;> simp [h0]
  | succ fu ih =>
    intro l h
    by_cases h64 : 64 ≤ l.length
    · have hdrop : (l.drop 64).length = l.length - 64 := List.length_drop _ _
      obtain ⟨ih1, ih2, ih3, ih4⟩ := ih (l.drop 64) (by omega)
      have htk : (l.take 64).length = 64 := by
        rw [List.length_take]; omega
      rw [splitB_ge h64]
      simp only [List.flatten_cons]
      refine ⟨?_, ?_, ih3, ?_⟩
      · rw [List.append_assoc, ih1, List.take_append_drop]
      · rw [List.length_append, htk]; omega
      · rw [splitB_append ((l.take 64).length) (l.take 64) le_rfl
          (by rw [htk]) _, ih4]
        have hsp : splitB (l.take 64) = ([l.take 64], []) := by
          rw [splitB_ge (by omega : 64 ≤ (l.take 64).length)]
          have h1 : (l.take 64).take 64 = l.take 64 :=
            List.take_of_length_le (by omega)
          have h2 : (l.take 64).drop 64 = [] :=
            List.drop_eq_nil_of_le (by omega)
          rw [h1, h2, splitB_lt (by simp)]
        rw [hsp]
        rfl
    · rw [splitB_lt (by omega)]
      refine ⟨by simp, by simp, by simp; omega, by simp [splitB_lt]⟩

/-- Zero-padding after a block-aligned prefix pads the rest alone. -/
theorem padGo_append {A : List Nat} (hA : A.length % 64 = 0) :
    ∀ fu (l : List Nat), padGo fu (A ++ l) = A ++ padGo fu l := by
  intro fu
  induction fu with
  | zero => intro l; rfl
  | succ fu ih =>
    intro l
    unfold padGo
    by_cases hl : l.length % 64 = 56
    · rw [if_pos (by rw [List.length_append]; omega), if_pos hl]
    · rw [if_neg (by rw [List.length_append]; omega), if_neg hl,
        List.append_assoc]
      exact ih (l ++ [0])

/-- With enough fuel the padding loop reaches length `56 mod 64`. -/
theorem padGo_mod :
    ∀ fu (l : List Nat), (120 - l.length % 64) % 64 ≤ fu →
    (padGo fu l).length % 64 = 56 := by
  intro fu
  induction fu with
  | zero =>
    intro l h
    have : l.length % 64 = 56 := by omega
    exact this
  | succ fu ih =>
    intro l h
    unfold padGo
    by_cases hl : l.length % 64 = 56
    · rw [if_pos hl]; exact hl
    · rw [if_neg hl]
      apply ih
      have hlen : (l ++ [0]).length = l.length + 1 := by
        rw [List.length_append]; rfl
      rw [hlen]
      omega

/-- The padding loop grows the list by at most the fuel, and never shrinks
it. -/
theorem padGo_length_bounds :
    ∀ fu (l : List Nat),
    l.length ≤ (padGo fu l).length ∧ (padGo fu l).length ≤ l.length + fu := by
  intro fu
  induction fu with
  | zero => intro l; unfold padGo; exact ⟨le_rfl, by omega⟩
  | succ fu ih =>
    intro l
    unfold padGo
    by_cases hl : l.length % 64 = 56
    · rw [if_pos hl]; exact ⟨le_rfl, by omega⟩
    · rw [if_neg hl]
      obtain ⟨h1, h2⟩ := ih (l ++ [0])
      have hlen : (l ++ [0]).length = l.length + 1 := by
        rw [List.length_append]; rfl
      rw [hlen] at h1 h2
      exact ⟨by omega, by omega⟩

/-- `splitB` produces `length / 64` blocks. -/
theorem splitB_count :
    ∀ fu (l : List Nat), l.length ≤ fu →
    (splitB l).1.length = l.length / 64 := by
  intro fu
  induction fu with
  | zero =>
    intro l h
    have hl : l = [] := List.eq_nil_of_length_eq_zero (Nat.le_zero.mp h)
    subst hl
    simp [splitB_lt (by simp : ([] : List Nat).length < 64)]
  | succ fu ih =>
    intro l h
    by_cases h64 : 64 ≤ l.length
    · have hdrop : (l.drop 64).length = l.length - 64 := List.length_drop _ _
      rw [splitB_ge h64]
      simp only [List.length_cons]
      rw [ih (l.drop 64) (by omega), hdrop]
      omega
    · rw [splitB_lt (by omega)]
      simp
      omega

/-- The block-processing loop of the streaming revision consumes exactly the
complete buffered blocks, folding them into the state. -/
theorem processGo_eq {σ : Type} (p : σ → List Nat → σ) :
    ∀ fu (l : List Nat) (len : Nat) (st : σ), l.length ≤ fu →
    processGo p fu ⟨l, len, st⟩ = ⟨(splitB l).2, len, (splitB l).1.foldl p st⟩ := by
  intro fu
  induction fu with
  | zero =>
    intro l len st h
    have hl : l = [] := List.eq_nil_of_length_eq_zero (Nat.le_zero.mp h)
    subst hl
    simp [processGo, splitB_lt (by simp : ([] : List Nat).length < 64)]
  | succ fu ih =>
    intro l len st h
    simp only [processGo]
    by_cases h64 : 64 ≤ l.length
    · have hdrop : (l.drop 64).length = l.length - 64 := List.length_drop _ _
      rw [if_pos h64, ih (l.drop 64) len (p st (l.take 64)) (by omega),
        splitB_ge h64, List.foldl_cons]
    · rw [if_neg h64, splitB_lt (by omega)]
      rfl

/-- Absorbing a message into a fresh RIPEMD-160 engine leaves its complete
blocks folded into the state, its tail in the buffer, and the bit count in
`length`. -/
theorem ripemd160Input_new (M : List Nat) :
    ripemd160Input ripemd160New M =
      ⟨(splitB M).2, 8 * M.length,
       (splitB M).1.foldl ripemd160ProcessBlock ripemd160New.state⟩ := by
  unfold ripemd160Input
  simp only [ripemd160New, List.nil_append, List.length_nil, Nat.zero_add]
  exact processGo_eq ripemd160ProcessBlock M.length M (8 * M.length) _ le_rfl

/-! ## Claim C3: RIPEMD-160 finalisation -/

/-- Claim C3: for every absorbed message, RIPEMD-160 finalisation pads the
tail with `0x80`, then `0x00`s until the length is `64 - 8 mod 64`, appends
the total absorbed length in bits as an 8-byte little-endian integer,
processes the resulting one or two blocks, and returns the five state
registers concatenated in little-endian order — i.e. the engine digest of
`M` equals the claim-worded whole-message digest `ripemd160SpecDigest M`,
and the finalisation processes one or two blocks. -/
theorem claim_C3 (M : List Nat) :
    ripemd160Finalise (ripemd160Input ripemd160New M) = ripemd160SpecDigest M ∧
    1 ≤ (ripemd160FinalBlocks (ripemd160Input ripemd160New M)).length ∧
    (ripemd160FinalBlocks (ripemd160Input ripemd160New M)).length ≤ 2 := by
  obtain ⟨h1, h2, h3, h4⟩ := splitB_recompose M.length M le_rfl
  rw [ripemd160Input_new]
  simp only [ripemd160Finalise, ripemd160FinalBlocks, ripemd160PadFbuffer,
    ripemd160SpecDigest, padTo56]
  have hM2 : M ++ [0x80] = (splitB M).1.flatten ++ ((splitB M).2 ++ [0x80]) := by
    conv_lhs => rw [← h1]
    rw [List.append_assoc]
  have hpad2 : padGo 64 (M ++ [0x80]) =
      (splitB M).1.flatten ++ padGo 64 ((splitB M).2 ++ [0x80]) := by
    rw [hM2, padGo_append h2]
  have hfull : padGo 64 (M ++ [0x80]) ++ toBytesLE64 (8 * M.length) =
      (splitB M).1.flatten ++
        (padGo 64 ((splitB M).2 ++ [0x80]) ++ toBytesLE64 (8 * M.length)) := by
    rw [hpad2, List.append_assoc]
  have hsp := splitB_append (splitB M).1.flatten.length (splitB M).1.flatten
    le_rfl h2 (padGo 64 ((splitB M).2 ++ [0x80]) ++ toBytesLE64 (8 * M.length))
  rw [h4] at hsp
  refine ⟨?_, ?_, ?_⟩
  · rw [hfull, hsp]
    simp only [List.foldl_append]
  all_goals {
    have hc := splitB_count
      (padGo 64 ((splitB M).2 ++ [0x80]) ++ toBytesLE64 (8 * M.length)).length
      (padGo 64 ((splitB M).2 ++ [0x80]) ++ toBytesLE64 (8 * M.length)) le_rfl
    have hplen : (padGo 64 ((splitB M).2 ++ [0x80])).length % 64 = 56 :=
      padGo_mod 64 _ (by omega)
    have hb := padGo_length_bounds 64 ((splitB M).2 ++ [0x80])
    have hT1 : ((splitB M).2 ++ [0x80]).length = (splitB M).2.length + 1 := by
      rw [List.length_append]; rfl
    have hle64 : (toBytesLE64 (8 * M.length)).length = 8 := rfl
    have hpf : (padGo 64 ((splitB M).2 ++ [0x80]) ++
        toBytesLE64 (8 * M.length)).length =
        (padGo 64 ((splitB M).2 ++ [0x80])).length + 8 := by
      rw [List.length_append, hle64]
    omega
  }

/-! ## Claims C4, C8: HMAC -/

/-- The source's sequential key priming equals the claim's
"hash-if-long, then right-pad to exactly B bytes". -/
theorem primeKey_eq {σ : Type} (B : Nat) (p : σ → List Nat → σ) (iv : σ)
    (finT : Engine σ → List Nat) (key : List Nat) :
    primeKey B p iv finT key = primeKeySpec B p iv finT key := by
  simp only [primeKey, primeKeySpec, hashAll]
  by_cases hk : (if B < key.length
      then finT (engineInput B p (engineNew iv) key) else key).length < B
  · rw [if_pos hk]
  · rw [if_neg hk, Nat.sub_eq_zero_of_le (Nat.le_of_not_lt hk),
      List.replicate_zero, List.append_nil]

/-- XORing against a blocksize-long replicated pad byte equals mapping the
XOR over the (blocksize-long) key. -/
theorem zipWith_xor_replicate (c : Nat) :
    ∀ (n : Nat) (l : List Nat), l.length = n →
    List.zipWith (fun a b => a ^^^ b) l (List.replicate n c) =
      l.map (fun x => x ^^^ c) := by
  intro n
  induction n with
  | zero =>
    intro l h
    have hl : l = [] := List.eq_nil_of_length_eq_zero h
    subst hl; rfl
  | succ n ih =>
    intro l h
    match l with
    | x :: xs =>
      rw [List.replicate_succ, List.zipWith_cons_cons, List.map_cons,
        ih xs (by simpa using h)]

/-- Claim C4: for every key `K` and message `M`, the HMAC engine computes
`H((K' ⊕ opad) ∥ H((K' ⊕ ipad) ∥ M))`, with `K'` the key hashed if longer
than the blocksize and right-padded with zeros to exactly `B` bytes; in
particular `finalise` feeds the inner digest into the outer engine and
returns the outer digest.  The hypothesis mirrors the source's
`assert_eq!(key.len(), Self::BLOCKSIZE)` after priming. -/
theorem claim_C4 {σ : Type} (B : Nat) (p : σ → List Nat → σ) (iv : σ)
    (finT : Engine σ → List Nat) (key M : List Nat) (hB : 0 < B)
    (hKey : (primeKey B p iv finT key).length = B) :
    hmacFinalise B p finT (hmacInput B p (hmacNewWithKey B p iv finT key) M) =
      hmacSpec B p iv finT key M := by
  have hpk := primeKey_eq B p iv finT key
  have hKs : (primeKeySpec B p iv finT key).length = B := by
    rw [← hpk]; exact hKey
  have h5c := zipWith_xor_replicate 0x5c B (primeKeySpec B p iv finT key) hKs
  have h36 := zipWith_xor_replicate 0x36 B (primeKeySpec B p iv finT key) hKs
  simp only [hmacFinalise, hmacInput, hmacNewWithKey, hmacSpec, hashAll,
    opadKey, ipadKey, hpk, h5c, h36, engineInput_append hB]

/-- Witness for claim C4 at a concrete instance. -/
theorem claim_C4_witness :
    0 < 4 ∧
    (primeKey 4 (fun s b => s + b.sum) 0
      (fun e : Engine Nat => [e.state % 256, e.length % 256]) [7]).length = 4 ∧
    hmacFinalise 4 (fun s b => s + b.sum)
        (fun e : Engine Nat => [e.state % 256, e.length % 256])
        (hmacInput 4 (fun s b => s + b.sum)
          (hmacNewWithKey 4 (fun s b => s + b.sum) 0
            (fun e : Engine Nat => [e.state % 256, e.length % 256]) [7])
          [1, 2, 3]) =
      hmacSpec 4 (fun s b => s + b.sum) 0
        (fun e : Engine Nat => [e.state % 256, e.length % 256]) [7] [1, 2, 3] :=
  ⟨by decide, by decide,
   claim_C4 4 (fun s b => s + b.sum) 0
     (fun e => [e.state % 256, e.length % 256]) [7] [1, 2, 3]
     (by decide) (by decide)⟩

/-- Claim C8: an HMAC engine keyed once with `K` produces the same digest
for `M` after a `reset` (which restores the inner and outer engines from
the cached keyed midstates at absorbed length `BLOCKSIZE`) as a freshly
keyed HMAC engine given `M` — whatever data (`junk`) was absorbed before
the reset. -/
theorem claim_C8 {σ : Type} (B : Nat) (p : σ → List Nat → σ) (iv : σ)
    (finT : Engine σ → List Nat) (key junk M : List Nat) (hB : 0 < B)
    (hKey : (primeKey B p iv finT key).length = B) :
    hmacFinalise B p finT
        (hmacInput B p
          (hmacReset B (hmacInput B p (hmacNewWithKey B p iv finT key) junk))
          M) =
      hmacFinalise B p finT
        (hmacInput B p (hmacNewWithKey B p iv finT key) M) := by
  have hKi : (ipadKey B p iv finT key).length = B := by
    rw [ipadKey, List.length_map]; exact hKey
  have hKo : (opadKey B p iv finT key).length = B := by
    rw [opadKey, List.length_map]; exact hKey
  have hiLen : (engineInput B p (engineNew iv) (ipadKey B p iv finT key)).length
      = B := by
    rw [engineInput_length hB]
    show 0 + _ = B
    rw [Nat.zero_add, hKi]
  have hoLen : (engineInput B p (engineNew iv) (opadKey B p iv finT key)).length
      = B := by
    rw [engineInput_length hB]
    show 0 + _ = B
    rw [Nat.zero_add, hKo]
  have hiBuf : (engineInput B p (engineNew iv) (ipadKey B p iv finT key)).buffer
      = [] := by
    apply List.eq_nil_of_length_eq_zero
    have hh := engineInput_buffer (p := p) hB (engineNew iv)
      (ipadKey B p iv finT key) (by simp [engineNew])
    rw [hiLen, Nat.mod_self] at hh
    exact hh
  have hoBuf : (engineInput B p (engineNew iv) (opadKey B p iv finT key)).buffer
      = [] := by
    apply List.eq_nil_of_length_eq_zero
    have hh := engineInput_buffer (p := p) hB (engineNew iv)
      (opadKey B p iv finT key) (by simp [engineNew])
    rw [hoLen, Nat.mod_self] at hh
    exact hh
  have hi : (⟨[], B,
      (engineInput B p (engineNew iv) (ipadKey B p iv finT key)).state⟩ :
        Engine σ) = engineInput B p (engineNew iv) (ipadKey B p iv finT key) := by
    conv_rhs => rw [show engineInput B p (engineNew iv) (ipadKey B p iv finT key)
      = ⟨(engineInput B p (engineNew iv) (ipadKey B p iv finT key)).buffer,
         (engineInput B p (engineNew iv) (ipadKey B p iv finT key)).length,
         (engineInput B p (engineNew iv) (ipadKey B p iv finT key)).state⟩
      from rfl]
    rw [hiBuf, hiLen]
  have ho : (⟨[], B,
      (engineInput B p (engineNew iv) (opadKey B p iv finT key)).state⟩ :
        Engine σ) = engineInput B p (engineNew iv) (opadKey B p iv finT key) := by
    conv_rhs => rw [show engineInput B p (engineNew iv) (opadKey B p iv finT key)
      = ⟨(engineInput B p (engineNew iv) (opadKey B p iv finT key)).buffer,
         (engineInput B p (engineNew iv) (opadKey B p iv finT key)).length,
         (engineInput B p (engineNew iv) (opadKey B p iv finT key)).state⟩
      from rfl]
    rw [hoBuf, hoLen]
  have hres : hmacReset B (hmacInput B p (hmacNewWithKey B p iv finT key) junk)
      = hmacNewWithKey B p iv finT key :=
    calc hmacReset B (hmacInput B p (hmacNewWithKey B p iv finT key) junk)
        = ⟨⟨[], B,
            (engineInput B p (engineNew iv) (ipadKey B p iv finT key)).state⟩,
           ⟨[], B,
            (engineInput B p (engineNew iv) (opadKey B p iv finT key)).state⟩,
           ((engineInput B p (engineNew iv) (ipadKey B p iv finT key)).state,
            (engineInput B p (engineNew iv) (opadKey B p iv finT key)).state),
           []⟩ := rfl
      _ = ⟨engineInput B p (engineNew iv) (ipadKey B p iv finT key),
           engineInput B p (engineNew iv) (opadKey B p iv finT key),
           ((engineInput B p (engineNew iv) (ipadKey B p iv finT key)).state,
            (engineInput B p (engineNew iv) (opadKey B p iv finT key)).state),
           []⟩ := by rw [hi, ho]
      _ = hmacNewWithKey B p iv finT key := rfl
  rw [hres]

/-- Witness for claim C8 at a concrete instance. -/
theorem claim_C8_witness :
    0 < 4 ∧
    (primeKey 4 (fun s b => s + b.sum) 0
      (fun e : Engine Nat => [e.state % 256, e.length % 256]) [7]).length = 4 ∧
    hmacFinalise 4 (fun s b => s + b.sum)
        (fun e : Engine Nat => [e.state % 256, e.length % 256])
        (hmacInput 4 (fun s b => s + b.sum)
          (hmacReset 4
            (hmacInput 4 (fun s b => s + b.sum)
              (hmacNewWithKey 4 (fun s b => s + b.sum) 0
                (fun e : Engine Nat => [e.state % 256, e.length % 256]) [7])
              [9]))
          [1, 2]) =
      hmacFinalise 4 (fun s b => s + b.sum)
        (fun e : Engine Nat => [e.state % 256, e.length % 256])
        (hmacInput 4 (fun s b => s + b.sum)
          (hmacNewWithKey 4 (fun s b => s + b.sum) 0
            (fun e : Engine Nat => [e.state % 256, e.length % 256]) [7])
          [1, 2]) :=
  ⟨by decide, by decide,
   claim_C8 4 (fun s b => s + b.sum) 0
     (fun e => [e.state % 256, e.length % 256]) [7] [9] [1, 2]
     (by decide) (by decide)⟩

/-! ## Claims C5, C9, C10: PBKDF2 -/

/-- `hmacInput` splits over concatenation (it forwards to the inner
engine's `input`). -/
theorem hmacInput_append {σ : Type} {B : Nat} {p : σ → List Nat → σ}
    (hB : 0 < B) (e : HmacEngine σ) (a b : List Nat) :
    hmacInput B p (hmacInput B p e a) b = hmacInput B p e (a ++ b) := by
  simp only [hmacInput, engineInput_append hB]

/-- The `while u.len() != 1` XOR loop is a left fold. -/
theorem xorGo_foldl :
    ∀ (rest : List (List Nat)) (fu : Nat) (x : List Nat), rest.length ≤ fu →
    xorGo fu (x :: rest) =
      rest.foldl (fun a b => List.zipWith (fun u v => u ^^^ v) a b) x := by
  intro rest
  induction rest with
  | nil =>
    intro fu x _
    cases fu <;> rfl
  | cons y r' ih =>
    intro fu x h
    cases fu with
    | zero => exact absurd h (by simp)
    | succ fu' =>
      show xorGo fu' (List.zipWith (fun u v => u ^^^ v) x y :: r') = _
      have hr : r'.length ≤ fu' := by
        simp only [List.length_cons] at h
        omega
      rw [ih fu' _ hr, List.foldl_cons]

/-- The `u` values of `f_compression`, instantiated at the HMAC engine,
are the claim's `U_j` sequence. -/
theorem pbkdfU_eq {σ : Type} (B : Nat) (p : σ → List Nat → σ) (iv : σ)
    (finT : Engine σ → List Nat) (password salt : List Nat) (hB : 0 < B) :
    ∀ n, pbkdfU (hmacNewWithKey B p iv finT) (hmacInput B p)
        (hmacFinalise B p finT) password salt n =
      pbkdf2SpecU
        (fun m => hmacFinalise B p finT
          (hmacInput B p (hmacNewWithKey B p iv finT password) m)) salt n := by
  intro n
  induction n with
  | zero =>
    simp only [pbkdfU, pbkdf2SpecU]
    rw [hmacInput_append hB]
  | succ n ih =>
    simp only [pbkdfU, pbkdf2SpecU]
    rw [ih]

/-- Claim C5: for every password, salt and iteration count `c ≥ 1`, PBKDF2
`finalise` returns `T = U_1 ⊕ U_2 ⊕ … ⊕ U_c` where
`U_1 = HMAC_P(S ∥ INT32BE(1))` (four-byte big-endian counter) and
`U_j = HMAC_P(U_{j-1})`, each HMAC a freshly keyed instance; in particular
with `c = 1` the output equals `HMAC_P(S ∥ 0x00000001)`.  Stated with the
PBKDF2 engine instantiated at the library's HMAC over an arbitrary hash
engine. -/
theorem claim_C5 {σ : Type} (B : Nat) (p : σ → List Nat → σ) (iv : σ)
    (finT : Engine σ → List Nat) (password salt : List Nat) (c : Nat)
    (hB : 0 < B) (hc : 1 ≤ c) :
    (pbkdf2Finalise (hmacNewWithKey B p iv finT) (hmacInput B p)
        (hmacFinalise B p finT) ⟨password, salt, c⟩).1 =
      pbkdf2SpecT
        (fun m => hmacFinalise B p finT
          (hmacInput B p (hmacNewWithKey B p iv finT password) m)) salt c ∧
    (c = 1 →
      (pbkdf2Finalise (hmacNewWithKey B p iv finT) (hmacInput B p)
          (hmacFinalise B p finT) ⟨password, salt, c⟩).1 =
        hmacFinalise B p finT
          (hmacInput B p (hmacNewWithKey B p iv finT password)
            (salt ++ toBytesBE32 1))) := by
  have hmain : (pbkdf2Finalise (hmacNewWithKey B p iv finT) (hmacInput B p)
      (hmacFinalise B p finT) ⟨password, salt, c⟩).1 =
      pbkdf2SpecT
        (fun m => hmacFinalise B p finT
          (hmacInput B p (hmacNewWithKey B p iv finT password) m)) salt c := by
    show pbkdf2FCompression _ _ _ ⟨password, salt, c⟩ = _
    simp only [pbkdf2FCompression, pbkdfUVec, xorReduce, pbkdf2SpecT]
    have hfn : (fun i => pbkdfU (hmacNewWithKey B p iv finT) (hmacInput B p)
        (hmacFinalise B p finT) password salt (i + 1)) =
        fun i => pbkdf2SpecU
          (fun m => hmacFinalise B p finT
            (hmacInput B p (hmacNewWithKey B p iv finT password) m)) salt
          (i + 1) := by
      funext i
      exact pbkdfU_eq B p iv finT password salt hB (i + 1)
    rw [pbkdfU_eq B p iv finT password salt hB 0, hfn,
      xorGo_foldl _ _ _ (by simp), List.foldl_map]
  refine ⟨hmain, fun hc1 => ?_⟩
  rw [hmain, hc1]
  rfl

/-- Witness for claim C5 at a concrete instance. -/
theorem claim_C5_witness :
    0 < 4 ∧ 1 ≤ 2 ∧
    (pbkdf2Finalise
        (hmacNewWithKey 4 (fun s b => s + b.sum) 0
          (fun e : Engine Nat => [e.state % 256, e.length % 256]))
        (hmacInput 4 (fun s b => s + b.sum))
        (hmacFinalise 4 (fun s b => s + b.sum)
          (fun e : Engine Nat => [e.state % 256, e.length % 256]))
        ⟨[7], [2], 2⟩).1 =
      pbkdf2SpecT
        (fun m => hmacFinalise 4 (fun s b => s + b.sum)
          (fun e : Engine Nat => [e.state % 256, e.length % 256])
          (hmacInput 4 (fun s b => s + b.sum)
            (hmacNewWithKey 4 (fun s b => s + b.sum) 0
              (fun e : Engine Nat => [e.state % 256, e.length % 256]) [7]) m))
        [2] 2 :=
  ⟨by decide, by decide,
   (claim_C5 4 (fun s b => s + b.sum) 0
     (fun e => [e.state % 256, e.length % 256]) [7] [2] 2
     (by decide) (by decide)).1⟩

/-- Counterexample for claim C9: a PBKDF2 engine whose iteration count has
been set to zero does not fail at `finalise` — the code has no
`PBKDF2_INVALID_PARAMS` (or any other) error path — it returns the same
derived key as iteration count one (`U_1`), here `[6]` for a concrete toy
PRF, password `[1]` and salt `[2]`. -/
theorem claim_C9_counterexample :
    (pbkdf2Finalise (fun k : List Nat => k) (fun e d => e ++ d)
        (fun e => [e.length % 256]) ⟨[1], [2], 0⟩).1 =
      (pbkdf2Finalise (fun k : List Nat => k) (fun e d => e ++ d)
        (fun e => [e.length % 256]) ⟨[1], [2], 1⟩).1 ∧
    (pbkdf2Finalise (fun k : List Nat => k) (fun e d => e ++ d)
        (fun e => [e.length % 256]) ⟨[1], [2], 0⟩).1 = [6] := by
  decide

/-- Claim C9 (amended): for every password and salt, a PBKDF2 engine whose
iteration count has been set to zero does not fail at `finalise`; it
returns `U_1`, the same derived key as iteration count one (the
`for i in 1..0` loop and the XOR fold both do nothing). -/
theorem claim_C9 {P : Type} (prfN : List Nat → P) (prfI : P → List Nat → P)
    (prfF : P → List Nat) (password salt : List Nat) :
    (pbkdf2Finalise prfN prfI prfF ⟨password, salt, 0⟩).1 =
      (pbkdf2Finalise prfN prfI prfF ⟨password, salt, 1⟩).1 := rfl

/-- Claim C10: `finalise` leaves the engine's password, salt and
iteration-count fields unchanged (`f_compression` only reads `&self`), so
calling `finalise` repeatedly without `reset` returns the same digest each
time. -/
theorem claim_C10 {P : Type} (prfN : List Nat → P) (prfI : P → List Nat → P)
    (prfF : P → List Nat) (e : PbkdfState) :
    (pbkdf2Finalise prfN prfI prfF e).2 = e ∧
    (pbkdf2Finalise prfN prfI prfF ((pbkdf2Finalise prfN prfI prfF e).2)).1 =
      (pbkdf2Finalise prfN prfI prfF e).1 :=
  ⟨rfl, rfl⟩

/-! ## Validation against the repository's own test vectors -/

set_option maxRecDepth 1000000

/-- SHA-256 of `"abc"` (test vector from src/sha2.rs and spec §8). -/
example : sha256Hash [0x61, 0x62, 0x63] =
    [0xba, 0x78, 0x16, 0xbf, 0x8f, 0x01, 0xcf, 0xea, 0x41, 0x41, 0x40, 0xde,
     0x5d, 0xae, 0x22, 0x23, 0xb0, 0x03, 0x61, 0xa3, 0x96, 0x17, 0x7a, 0x9c,
     0xb4, 0x10, 0xff, 0x61, 0xf2, 0x00, 0x15, 0xad] := by decide

/-- SHA-256 of the empty message (test vector from src/sha2.rs and §8). -/
example : sha256Hash [] =
    [0xe3, 0xb0, 0xc4, 0x42, 0x98, 0xfc, 0x1c, 0x14, 0x9a, 0xfb, 0xf4, 0xc8,
     0x99, 0x6f, 0xb9, 0x24, 0x27, 0xae, 0x41, 0xe4, 0x64, 0x9b, 0x93, 0x4c,
     0xa4, 0x95, 0x99, 0x1b, 0x78, 0x52, 0xb8, 0x55] := by decide

/-- RIPEMD-160 of the empty message through the streaming engine (test
vector from src/ripemd.rs and spec §8). -/
example : ripemd160Finalise (ripemd160Input ripemd160New []) =
    [0x9c, 0x11, 0x85, 0xa5, 0xc5, 0xe9, 0xfc, 0x54, 0x61, 0x28, 0x08, 0x97,
     0x7e, 0xe8, 0xf5, 0x48, 0xb2, 0x25, 0x8d, 0x31] := by decide

/-- RIPEMD-160 of `"abc"` through the streaming engine (test vector from
src/ripemd.rs and spec §8). -/
example : ripemd160Finalise (ripemd160Input ripemd160New [0x61, 0x62, 0x63]) =
    [0x8e, 0xb2, 0x08, 0xf7, 0xe0, 0x5d, 0x98, 0x7a, 0x9b, 0x04, 0x4a, 0x8e,
     0x98, 0xc6, 0xb0, 0x87, 0xf1, 0x5a, 0x0b, 0xfc] := by decide

/-- The streaming SHA-256 engine agrees with the whole-message hash on
`"abc"`. -/
example : sha256EngineFinalise
      (engineInput 64 sha256P sha256EngineNew [0x61, 0x62, 0x63]) =
    sha256Hash [0x61, 0x62, 0x63] := by decide

/-- HMAC-SHA-256 with key `"key"` and message
`"The quick brown fox jumps over the lazy dog"` (test vector from
src/hmac.rs and spec §8). -/
example : hmacFinalise 64 sha256P sha256EngineFinalise
      (hmacInput 64 sha256P
        (hmacNewWithKey 64 sha256P SHA256_INITIAL_CONSTANTS
          sha256EngineFinalise [0x6b, 0x65, 0x79])
        [0x54, 0x68, 0x65, 0x20, 0x71, 0x75, 0x69, 0x63, 0x6b, 0x20, 0x62,
         0x72, 0x6f, 0x77, 0x6e, 0x20, 0x66, 0x6f, 0x78, 0x20, 0x6a, 0x75,
         0x6d, 0x70, 0x73, 0x20, 0x6f, 0x76, 0x65, 0x72, 0x20, 0x74, 0x68,
         0x65, 0x20, 0x6c, 0x61, 0x7a, 0x79, 0x20, 0x64, 0x6f, 0x67]) =
    [0xf7, 0xbc, 0x83, 0xf4, 0x30, 0x53, 0x84, 0x24, 0xb1, 0x32, 0x98, 0xe6,
     0xaa, 0x6f, 0xb1, 0x43, 0xef, 0x4d, 0x59, 0xa1, 0x49, 0x46, 0x17, 0x59,
     0x97, 0x47, 0x9d, 0xbc, 0x2d, 0x1a, 0x3c, 0xd8] := by decide
